import Mathlib

/-!
# Verification of the trendfin text/ticker/contract extraction core

Shallow embedding of `src/trendfin/parsers.py` (classes `TextParser`,
`TickerParser`, `ContractParser`).  Text is modelled as `List Char`; each
Python `re.sub` call is embedded as a hand-rolled left-to-right,
non-overlapping scanner that is faithful to the concrete pattern used in
the source (including alternation order, greediness and the position at
which scanning resumes after a match).  Machine floats produced by Python's
`float()` are modelled as exact rationals (`ℚ`); the inputs exercised by
the claims are far from any float-precision boundary.

The external `emoji.demojize` library function is not part of the
repository; every definition that depends on it takes it as an explicit
function parameter `dem : List Char → List Char`, and concrete witnesses
instantiate it with `id` (its behaviour on emoji-free ASCII text).

Python's `str.upper`, `str.split()` and `\S` are modelled on ASCII
(`Char.toUpper`, splitting on the six ASCII whitespace characters); the
claims settled here do not depend on non-ASCII case mapping.
-/

namespace Trendfin

/-- Dropping a prefix by a predicate never lengthens a list (helper used in
termination proofs of the regex scanners). -/
theorem length_dropWhile_le' (p : α → Bool) (l : List α) :
    (l.dropWhile p).length ≤ l.length := by
  induction l with
  | nil => simp
  | cons a l ih =>
    rw [List.dropWhile_cons]
    split
    · exact Nat.le_trans ih (Nat.le_succ _)
    · simp

/-- The six whitespace characters recognised by Python's `str.split()` and
`\s` on ASCII text. -/
def isPySpace (c : Char) : Bool :=
  c = ' ' || c = '\t' || c = '\n' || c = '\r' || c = '\x0b' || c = '\x0c'

/-- Driver shared by all single-pattern `re.sub` embeddings: scan left to
right; at each position attempt the pattern (`step`, which returns the
replacement text and the input remaining after the matched span); on a
match emit the replacement and resume scanning right after the span, else
emit one character and advance one position.  `atStart` is true exactly at
position 0 of the string (where `^` may match).  The fuel argument makes
the recursion structural; every matcher used below consumes at least one
character, so fuel equal to the input length always suffices. -/
def reSub (step : Bool → List Char → Option (List Char × List Char)) :
    Nat → Bool → List Char → List Char
  | _, _, [] => []
  | 0, _, cs => cs
  | fuel + 1, atStart, c :: cs =>
    match step atStart (c :: cs) with
    | some (rep, rem) => rep ++ reSub step fuel false rem
    | none => c :: reSub step fuel false cs

/-! ## TextParser -/

/-- `TextParser.alpha`: `re.sub(r'[^A-Za-z ]+', r'', text)` — keep only
ASCII letters and the space character. -/
def alpha (text : List Char) : List Char :=
  text.filter (fun c => c.isAlpha || c = ' ')

/-- `TextParser.numeric`: `re.sub(r'[^0-9 ]+', r'', text)` — keep only
ASCII digits and the space character. -/
def numeric (text : List Char) : List Char :=
  text.filter (fun c => c.isDigit || c = ' ')

/-- `TextParser.alphanumeric`: `re.sub(r'[^A-Za-z0-9 ]+', r'', text)` —
keep only ASCII letters, digits and the space character. -/
def alphanumeric (text : List Char) : List Char :=
  text.filter (fun c => c.isAlpha || c.isDigit || c = ' ')

/-- Matcher for `(:[A-Za-z_]+:)` with replacement `' \1 '` (the padding
pass of `TextParser.replace_emojis`): a colon, a nonempty greedy run of
letters/underscores, a closing colon; the whole group is re-emitted
surrounded by spaces. -/
def padStep (cs : List Char) : Option (List Char × List Char) :=
  match cs with
  | ':' :: rest =>
    let run := rest.takeWhile (fun d => d.isAlpha || d = '_')
    if run.isEmpty then none
    else
      match rest.drop run.length with
      | ':' :: r2 => some (' ' :: ':' :: (run ++ [':', ' ']), r2)
      | _ => none
  | _ => none

/-- The padding pass of `TextParser.replace_emojis`:
`re.sub(r'(:[A-Za-z_]+:)', r' \1 ', text)`. -/
def padEmoji (cs : List Char) : List Char :=
  reSub (fun _ => padStep) cs.length true cs

/-- `TextParser.replace_emojis`: `emoji.demojize` (external library,
passed in as `dem`) followed by the `:name:` padding substitution. -/
def replace_emojis (dem : List Char → List Char) (text : List Char) : List Char :=
  padEmoji (dem text)

/-- Fueled worker for `splitWs`; fuel equal to the input length always
suffices since every step consumes at least one character. -/
def splitWsF : Nat → List Char → List (List Char)
  | _, [] => []
  | 0, _ => []
  | fuel + 1, c :: cs =>
    if isPySpace c then splitWsF fuel cs
    else
      (c :: cs.takeWhile (fun d => !isPySpace d)) ::
        splitWsF fuel (cs.dropWhile (fun d => !isPySpace d))

/-- Split on runs of whitespace, dropping empty pieces — Python's
`str.split()` with no argument. -/
def splitWs (cs : List Char) : List (List Char) :=
  splitWsF cs.length cs

/-- `TextParser.remove_stop_words`: split on whitespace, drop every word
whose uppercase form is in the stop-word list, rejoin with single
spaces. -/
def remove_stop_words (stop_words : List (List Char)) (text : List Char) : List Char :=
  List.intercalate [' ']
    ((splitWs text).filter (fun w => !(decide (w.map Char.toUpper ∈ stop_words))))

/-- `TextParser.words`: `replace_emojis` → `alpha` → `upper` → `split()`. -/
def words (dem : List Char → List Char) (text : List Char) : List (List Char) :=
  splitWs ((alpha (replace_emojis dem text)).map Char.toUpper)

/-- `TextParser._STOP_WORDS`: the default stop-word list. -/
def _STOP_WORDS : List (List Char) :=
  (["ABOUT", "ACTUALLY", "AFTER", "AGAIN", "ALREADY", "ALSO", "ALWAYS", "AND", "ANOTHER",
    "ANYONE", "ANYTHING", "AROUND", "AS", "AUTOMATICALLY", "BACK", "BECAUSE", "BEEN", "BEFORE",
    "BEING", "BETTER", "BOT", "BUT", "CANT", "COME", "COMPANIES", "COMPANY", "COULD", "DAY",
    "DAYS", "DELETED", "DID", "DIDNT", "DO", "DOES", "DOESNT", "DOING", "EVEN", "EVERY",
    "EVERYONE", "FEEL", "FEW", "FIND", "FIRST", "FROM", "FUCK", "FUCKING", "GET", "GETTING",
    "GONNA", "GOT", "HAD", "HAVE", "HERE", "HIS", "HOW", "I", "IF", "ILL", "IM", "IN", "INTO",
    "IS", "ISNT", "ITS", "KEEP", "KNOW", "LAST", "LOL", "LOOK", "LOOKING", "LOT", "MADE",
    "MAKE", "MANY", "MARKET", "MAYBE", "ME", "MEAN", "MIGHT", "MONTHS", "MOST", "MUCH", "MY",
    "NEED", "NEWS", "OF", "ONLY", "OPTIONS", "OTHER", "PEOPLE", "PLEASE", "POINT", "PRETTY",
    "PROBABLY", "QUESTIONS", "REALLY", "REMOVED", "SAID", "SAME", "SAY", "SHOULD", "SINCE",
    "SOME", "SOMETHING", "STILL", "SURE", "TAKE", "THAN", "THANKS", "THAT", "THATS", "THE",
    "THEIR", "THEM", "THEN", "THERE", "THERES", "THESE", "THEY", "THEYRE", "THING", "THINK",
    "THIS", "THOSE", "THOUGH", "TIME", "TO", "TODAY", "TOMORROW", "TOO", "TRADING", "UNTIL",
    "US", "USE", "WAS", "WAY", "WE", "WEEK", "WERE", "WHAT", "WHEN", "WHERE", "WHICH", "WHILE",
    "WHO", "WHY", "WILL", "WITH", "WOULD", "YEAH", "YEAR", "YEARS", "YES", "YOU", "YOUR",
    "YOURE"] : List String).map String.data

/-! ## TickerParser configuration -/

/-- Constructor-time configuration shared by `TickerParser` and
`ContractParser`: the ticker universe (`valid_tickers`), the
`ignore_duplicates` flag and the stop-word list inherited from
`TextParser`. -/
structure Config where
  valid_tickers : List (List Char)
  ignore_duplicates : Bool
  stop_words : List (List Char)
deriving DecidableEq

/-- First-occurrence deduplication — the order-preserving content of both
Python's `list(set(xs) & set(ys))` (whose set order is unspecified; we fix
first-occurrence order, and prove only order-insensitive facts about it)
and pandas' `drop_duplicates()` (which does keep first occurrences). -/
def dedupKeepFirst [DecidableEq α] : List α → List α
  | [] => []
  | a :: l => if a ∈ l then a :: (dedupKeepFirst l).filter (fun x => !(decide (x = a)))
              else a :: dedupKeepFirst l

theorem mem_dedupKeepFirst [DecidableEq α] {a : α} {l : List α} :
    a ∈ dedupKeepFirst l ↔ a ∈ l := by
  induction l with
  | nil => simp [dedupKeepFirst]
  | cons b l ih =>
    rw [dedupKeepFirst]
    split
    · simp only [List.mem_cons, List.mem_filter, ih]
      constructor
      · rintro (rfl | ⟨h, _⟩) <;> simp [*]
      · rintro (rfl | h)
        · exact Or.inl rfl
        · by_cases hab : a = b
          · exact Or.inl hab
          · exact Or.inr ⟨h, by simp [hab]⟩
    · simp [ih]

theorem nodup_dedupKeepFirst [DecidableEq α] (l : List α) :
    (dedupKeepFirst l).Nodup := by
  induction l with
  | nil => simp [dedupKeepFirst]
  | cons b l ih =>
    rw [dedupKeepFirst]
    split
    · refine List.Nodup.cons ?_ (List.Nodup.filter _ ih)
      intro hmem
      have := (List.mem_filter.mp hmem).2
      simp at this
    · exact List.Nodup.cons (by simp [mem_dedupKeepFirst, *]) ih

/-! ## TickerParser -/

/-- `TickerParser.tickers`: tokenize with `words`; with
`ignore_duplicates` return `list(set(words) & set(valid_tickers))`
(modelled in first-occurrence order), otherwise the order- and
multiplicity-preserving filter of the tokens by universe membership. -/
def tickers (cfg : Config) (dem : List Char → List Char) (text : List Char) :
    List (List Char) :=
  let ws := words dem text
  if cfg.ignore_duplicates then
    (dedupKeepFirst ws).filter (fun w => decide (w ∈ cfg.valid_tickers))
  else
    ws.filter (fun w => decide (w ∈ cfg.valid_tickers))

/-- `TickerParser.ticker_counts`: recompute the token list, intersect with
the universe (a set, modelled in first-occurrence order), and pair every
such ticker with its `collections.Counter` frequency among all tokens.
The `ignore_duplicates` flag is never read by this method. -/
def ticker_counts (cfg : Config) (dem : List Char → List Char) (text : List Char) :
    List (List Char × Nat) :=
  let ws := words dem text
  let ts := (dedupKeepFirst ws).filter (fun w => decide (w ∈ cfg.valid_tickers))
  ts.map (fun t => (t, ws.count t))

/-! ## ContractParser: the rewrite pipeline of `_contract_elements` -/

/-- Matcher for `HTTP\S+` with replacement `' '` (URL stripping, applied
to the already-uppercased text): the literal `HTTP` followed by a nonempty
greedy run of non-whitespace. -/
def urlStep (cs : List Char) : Option (List Char × List Char) :=
  match cs with
  | 'H' :: 'T' :: 'T' :: 'P' :: rest =>
    let run := rest.takeWhile (fun c => !isPySpace c)
    if run.isEmpty then none else some ([' '], rest.drop run.length)
  | _ => none

/-- `re.sub(r'HTTP\S+', ' ', text)`. -/
def removeUrls (cs : List Char) : List Char :=
  reSub (fun _ => urlStep) cs.length true cs

/-- `re.sub(r'([^0-9]|^)\.([^0-9]|$)', r'\1\2', text)` — the
period-removal pass, with Python's exact alternation order (`[^0-9]`
before `^`, `[^0-9]` before `$`) and non-overlapping left-to-right
scanning: a matched span consumes the period together with its non-digit
neighbours (which are re-emitted), and scanning resumes after the span.
`atStart` is true exactly at position 0, the only place `^` can match. -/
def remPeriods : Bool → List Char → List Char
  | _, [] => []
  | atStart, [a] =>
    -- a single remaining character: only `^\.$`-shaped `^` matches fire
    if atStart && a = '.' then [] else [a]
  | atStart, a :: '.' :: [] =>
    -- candidate match with group1 = `a`, group2 = `$`
    if a.isDigit then a :: remPeriods false ['.'] else [a]
  | atStart, a :: '.' :: b :: r3 =>
    -- candidate match with group1 = `a` (tried first, as `[^0-9]`
    -- precedes `^` in the alternation), group2 = `b`
    if a.isDigit then a :: remPeriods false ('.' :: b :: r3)
    else if b.isDigit then
      -- group2 fails; the `^` alternative can still match at position 0
      -- when `a` itself is a period (consuming `a` and the period after
      -- it, re-emitting the latter as group2)
      if atStart && a = '.' then '.' :: remPeriods false (b :: r3)
      else a :: remPeriods false ('.' :: b :: r3)
    else a :: b :: remPeriods false r3
  | atStart, a :: c :: r2 =>
    -- the next character is not a period, so only the `^` alternative
    -- (with `a` itself the matched period) can fire, and only at start
    if atStart && a = '.' then
      if c.isDigit then a :: remPeriods false (c :: r2)  -- no match
      else c :: remPeriods false r2                      -- group2 = `c`
    else a :: remPeriods false (c :: r2)

/-- Matcher for `' +'` with replacement `' '` (collapse runs of spaces). -/
def spaceStep (cs : List Char) : Option (List Char × List Char) :=
  match cs with
  | ' ' :: rest => some ([' '], rest.dropWhile (fun c => c = ' '))
  | _ => none

/-- Matcher for `(^| )0(\d+\/)` with replacement `\1\2` (strip one
leading zero from the first numeric group of a date, at the start of the
string or after a space). -/
def zeroAStep (atStart : Bool) (cs : List Char) : Option (List Char × List Char) :=
  match cs with
  | '0' :: rest =>
    if atStart then
      let ds := rest.takeWhile Char.isDigit
      if ds.isEmpty then none
      else
        match rest.drop ds.length with
        | '/' :: r2 => some (ds ++ ['/'], r2)
        | _ => none
    else none
  | ' ' :: '0' :: rest =>
    let ds := rest.takeWhile Char.isDigit
    if ds.isEmpty then none
    else
      match rest.drop ds.length with
      | '/' :: r2 => some (' ' :: (ds ++ ['/']), r2)
      | _ => none
  | _ => none

/-- Matcher for `(\/)0(\d+)` with replacement `\1\2` (strip one leading
zero right after a slash). -/
def zeroBStep (cs : List Char) : Option (List Char × List Char) :=
  match cs with
  | '/' :: '0' :: rest =>
    let ds := rest.takeWhile Char.isDigit
    if ds.isEmpty then none else some ('/' :: ds, rest.drop ds.length)
  | _ => none

/-- First alternative of `([.| ]\d+) ?(CALL(S)?)|CS`: a `.`/`|`/space,
a nonempty digit run, an optional space, the literal `CALL`, an optional
`S`; replacement `\1C` re-emits group 1 followed by `C`. -/
def callAlt1 : List Char → Option (List Char × List Char)
  | [] => none
  | p :: rest =>
    -- `rest.takeWhile Char.isDigit` is the greedy `\d+` (written out at
    -- each use); after it, an optional space, then the literal `CALL`
    -- and an optional `S`
    if p = '.' || p = '|' || p = ' ' then
      if (rest.takeWhile Char.isDigit).isEmpty then none
      else
        match (if (rest.drop (rest.takeWhile Char.isDigit).length).head? = some ' '
               then (rest.drop (rest.takeWhile Char.isDigit).length).tail
               else rest.drop (rest.takeWhile Char.isDigit).length) with
        | 'C' :: 'A' :: 'L' :: 'L' :: r4 =>
          some (p :: (rest.takeWhile Char.isDigit ++ ['C']),
                if r4.head? = some 'S' then r4.tail else r4)
        | _ => none
    else none

/-- Full matcher for `([.| ]\d+) ?(CALL(S)?)|CS` with replacement `\1C`:
the alternation binds the whole pattern, so a bare `CS` anywhere matches
the second alternative, in which group 1 did not participate and is
substituted (per Python ≥ 3.5) by the empty string — the `CS` collapses to
a lone `C`. -/
def callStep (cs : List Char) : Option (List Char × List Char) :=
  match callAlt1 cs with
  | some r => some r
  | none =>
    match cs with
    | 'C' :: 'S' :: rest => some (['C'], rest)
    | _ => none

/-- `re.sub(r'([.| ]\d+) ?(CALL(S)?)|CS', r'\1C', text)`. -/
def replaceCalls (cs : List Char) : List Char :=
  reSub (fun _ => callStep) cs.length true cs

/-- First alternative of `([.| ]\d+) ?(PUT(S)?)|PS` (mirror of
`callAlt1`). -/
def putAlt1 : List Char → Option (List Char × List Char)
  | [] => none
  | p :: rest =>
    if p = '.' || p = '|' || p = ' ' then
      if (rest.takeWhile Char.isDigit).isEmpty then none
      else
        match (if (rest.drop (rest.takeWhile Char.isDigit).length).head? = some ' '
               then (rest.drop (rest.takeWhile Char.isDigit).length).tail
               else rest.drop (rest.takeWhile Char.isDigit).length) with
        | 'P' :: 'U' :: 'T' :: r4 =>
          some (p :: (rest.takeWhile Char.isDigit ++ ['P']),
                if r4.head? = some 'S' then r4.tail else r4)
        | _ => none
    else none

/-- Full matcher for `([.| ]\d+) ?(PUT(S)?)|PS` with replacement `\1P`
(mirror of `callStep`, including the bare-`PS` second alternative). -/
def putStep (cs : List Char) : Option (List Char × List Char) :=
  match putAlt1 cs with
  | some r => some r
  | none =>
    match cs with
    | 'P' :: 'S' :: rest => some (['P'], rest)
    | _ => none

/-- `re.sub(r'([.| ]\d+) ?(PUT(S)?)|PS', r'\1P', text)`. -/
def replacePuts (cs : List Char) : List Char :=
  reSub (fun _ => putStep) cs.length true cs

/-- Matcher for `(\d+) ([CP])( |[^A-Z]|$)` with replacement `\1\2\3`
(delete the space between a strike number and a bare `C`/`P` suffix). -/
def mergeStep (cs : List Char) : Option (List Char × List Char) :=
  let ds := cs.takeWhile Char.isDigit
  if ds.isEmpty then none
  else
    match cs.drop ds.length with
    | ' ' :: c2 :: r3 =>
      if c2 = 'C' || c2 = 'P' then
        match r3 with
        | [] => some (ds ++ [c2], [])                    -- group3 = `$`
        | g :: r4 =>
          if g = ' ' || !('A' ≤ g && g ≤ 'Z') then some (ds ++ [c2, g], r4)
          else none
      else none
    | _ => none

/-- `re.sub(r'(\d+) ([CP])( |[^A-Z]|$)', r'\1\2\3', text)`. -/
def mergeStrikeType (cs : List Char) : List Char :=
  reSub (fun _ => mergeStep) cs.length true cs

/-- The full rewrite pipeline at the top of
`ContractParser._contract_elements`, steps applied in source order. -/
def rewriteText (text : List Char) : List Char :=
  let t1 := text.map Char.toUpper
  let t2 := removeUrls t1
  let t3 := t2.map (fun c => if c = '\n' || c = '@' then ' ' else c)
  let t4 := remPeriods true t3
  let t5 := t4.filter (fun c => c.isAlpha || c.isDigit || c = '/' || c = '.' || c = ' ')
  let t6 := reSub (fun _ => spaceStep) t5.length true t5
  let t7 := reSub zeroAStep t6.length true t6
  let t8 := reSub (fun _ => zeroBStep) t7.length true t7
  let t9 := replaceCalls t8
  let t10 := replacePuts t9
  mergeStrikeType t10

/-! ## ContractParser: token classification and assembly -/

/-- `re.search(r'\d+[CP]', word)`: some digit immediately followed by `C`
or `P`. -/
def hasStrikePat : List Char → Bool
  | a :: b :: r => (a.isDigit && (b = 'C' || b = 'P')) || hasStrikePat (b :: r)
  | _ => false

/-- `re.search(r'(\d+\/\d+(?:\/\d+)?)', word)`: some digit immediately
followed by a slash and another digit (the optional third group never
affects whether a search succeeds). -/
def hasDatePat : List Char → Bool
  | a :: b :: c :: r => (a.isDigit && b = '/' && c.isDigit) || hasDatePat (b :: c :: r)
  | _ => false

/-- `re.search` with a literal pattern: substring test. -/
def isSubstr (p : List Char) : List Char → Bool
  | [] => p.isPrefixOf []
  | c :: cs => p.isPrefixOf (c :: cs) || isSubstr p cs

/-- A classified token of `ContractParser._contract_elements`: the source
appends `['ticker', word]`, `['strike', word]` or `['date', word]`. -/
inductive CElem where
  | ticker (w : List Char)
  | strike (w : List Char)
  | date (w : List Char)
deriving DecidableEq

/-- The classification body of the token loop in
`ContractParser._contract_elements` (`t` is the whole rewritten text,
consulted by the document-global `CALL`/`PUT` search): membership in the
universe, then the explicit strike pattern, then the inferred-strike
branch (no slash, contains a digit), then the date pattern; unclassified
tokens produce nothing. -/
def classifyWord (valid : List (List Char)) (t : List Char) (w : List Char) : List CElem :=
  if w ∈ valid then [CElem.ticker w]
  else if hasStrikePat w then [CElem.strike w]
  else if !(decide ('/' ∈ w)) && w.any Char.isDigit then
    if isSubstr "CALL".data t then [CElem.strike (w ++ ['C'])]
    else if isSubstr "PUT".data t then [CElem.strike (w ++ ['P'])]
    else []
  else if hasDatePat w then [CElem.date w]
  else []

/-- `ContractParser._contract_elements`: rewrite, split on whitespace,
classify each token in order. -/
def contract_elements (valid : List (List Char)) (text : List Char) : List CElem :=
  let t := rewriteText text
  (splitWs t).flatMap (classifyWord valid t)

/-- Digit-string to number (the digits of the matched groups are ASCII). -/
def digitsToNat (ds : List Char) : Nat :=
  ds.foldl (fun n c => 10 * n + (c.toNat - '0'.toNat)) 0

/-- Exponent part of a Python float literal: `E` already consumed, a
nonempty digit run must fill the rest (signs cannot occur: every `+`/`-`
was removed by the special-character pass). -/
def parseExpPart (m : ℚ) (r : List Char) : Option ℚ :=
  let ed := r.takeWhile Char.isDigit
  if ed.isEmpty then none
  else if (r.drop ed.length).isEmpty then some (m * 10 ^ digitsToNat ed) else none

/-- Python's `float()` on the strings reachable as `strike[:-1]` in
`ContractParser.contracts` — uppercased, sign-free, underscore-free, and
always containing at least one digit (so the `inf`/`nan` spellings are
unreachable): optional integer digits, an optional `.` with optional
fractional digits (at least one digit overall), an optional `E` exponent.
The value is modelled as an exact rational. -/
def parsePyFloat (w : List Char) : Option ℚ :=
  let ip := w.takeWhile Char.isDigit
  match w.drop ip.length with
  | [] => if ip.isEmpty then none else some (digitsToNat ip)
  | '.' :: r2 =>
    let fp := r2.takeWhile Char.isDigit
    if ip.isEmpty && fp.isEmpty then none
    else
      let m : ℚ := (digitsToNat ip : ℚ) + (digitsToNat fp : ℚ) / 10 ^ fp.length
      match r2.drop fp.length with
      | [] => some m
      | 'E' :: r4 => parseExpPart m r4
      | _ => none
  | 'E' :: r4 => if ip.isEmpty then none else parseExpPart (digitsToNat ip) r4
  | _ => none

/-- One row of the `contracts` dataframe. -/
structure Contract where
  ticker : List Char
  strike : ℚ
  type : List Char
  date : List Char
deriving DecidableEq

/-- Slot update for a classified element: a ticker element overwrites the
pending ticker, otherwise the slot is kept. -/
def slotT (e : CElem) (t : Option (List Char)) : Option (List Char) :=
  match e with | .ticker w => some w | _ => t

/-- Slot update for the pending strike. -/
def slotS (e : CElem) (s : Option (List Char)) : Option (List Char) :=
  match e with | .strike w => some w | _ => s

/-- Slot update for the pending date. -/
def slotD (e : CElem) (d : Option (List Char)) : Option (List Char) :=
  match e with | .date w => some w | _ => d

/-- Finalisation of a completed ticker/strike/date triple in
`ContractParser.contracts`: the type is read off the presence of `C` in
the strike token, the numeric part `strike[:-1]` is parsed (`float()`; a
failure is caught and silently drops the candidate), and the row is
appended only when the strike exceeds 5. -/
def finalizeRow (tv sv dv : List Char) : List Contract :=
  match parsePyFloat sv.dropLast with
  | some q =>
    if 5 < q then [⟨tv, q, if 'C' ∈ sv then "call".data else "put".data, dv⟩]
    else []
  | none => []

/-- The assembly loop of `ContractParser.contracts`: pending
ticker/strike/date slots are overwritten by newly classified elements; as
soon as all three are populated the triple is finalised with
`finalizeRow` and all three slots are reset (whether or not a row was
emitted). -/
def assemble : List CElem → Option (List Char) → Option (List Char) →
    Option (List Char) → List Contract
  | [], _, _, _ => []
  | e :: es, t0, s0, d0 =>
    match slotT e t0, slotS e s0, slotD e d0 with
    | some tv, some sv, some dv => finalizeRow tv sv dv ++ assemble es none none none
    | t, s, d => assemble es t s d

/-- `ContractParser.contracts`: assemble rows, then `drop_duplicates()`
(keep first) when `ignore_duplicates` is set. -/
def contracts (cfg : Config) (text : List Char) : List Contract :=
  let rows := assemble (contract_elements cfg.valid_tickers text) none none none
  if cfg.ignore_duplicates then dedupKeepFirst rows else rows

/-- Lexicographic comparison of character lists (pandas sorts group keys;
string order). -/
def charListLE : List Char → List Char → Bool
  | [], _ => true
  | _ :: _, [] => false
  | a :: xs, b :: ys => if a < b then true else if b < a then false else charListLE xs ys

/-- Lexicographic comparison of contract rows on the grouped column tuple
`(ticker, strike, type, date)`. -/
def contractLE (c1 c2 : Contract) : Bool :=
  if c1.ticker ≠ c2.ticker then charListLE c1.ticker c2.ticker
  else if c1.strike ≠ c2.strike then decide (c1.strike ≤ c2.strike)
  else if c1.type ≠ c2.type then charListLE c1.type c2.type
  else charListLE c1.date c2.date

/-- Insertion of one element into a sorted list. -/
def insertSorted (le : α → α → Bool) (a : α) : List α → List α
  | [] => [a]
  | b :: l => if le a b then a :: b :: l else b :: insertSorted le a l

/-- Insertion sort (pandas `groupby` sorts by the group key). -/
def sortBy (le : α → α → Bool) : List α → List α
  | [] => []
  | a :: l => insertSorted le a (sortBy le l)

/-- Number of occurrences of a row in a row list (the `size()` of a
group). -/
def countRow (r : Contract) (rows : List Contract) : Nat :=
  (rows.filter (fun x => decide (x = r))).length

/-- `ContractParser.contract_counts`: group the output of
`self.contracts(text)` — which already honoured `ignore_duplicates` — by
the full column tuple and attach group sizes; group keys come out
sorted. -/
def contract_counts (cfg : Config) (text : List Char) : List (Contract × Nat) :=
  let rows := contracts cfg text
  (sortBy contractLE (dedupKeepFirst rows)).map (fun r => (r, countRow r rows))

/-! ## Claim C5 -/

/-- **C5.** `filterAlpha`, `filterNumeric` and `filterAlphanumeric`
(`TextParser.alpha` / `.numeric` / `.alphanumeric`) are idempotent:
applying any of the three filters twice yields the same string as applying
it once, for every input string. -/
theorem C5_filters_idempotent (s : List Char) :
    alpha (alpha s) = alpha s ∧ numeric (numeric s) = numeric s ∧
      alphanumeric (alphanumeric s) = alphanumeric s := by
  refine ⟨?_, ?_, ?_⟩ <;>
    simp [alpha, numeric, alphanumeric, List.filter_filter]

/-! ## Claim C3 -/

/-- **C3.** Every element returned by `extractTickers`
(`TickerParser.tickers`) is a member of the configured universe; when
`ignoreDuplicates` is true the result is the set intersection of the
tokenized text with the universe (membership iff token-and-universe
membership, each ticker at most once); when `ignoreDuplicates` is false it
is exactly the subsequence of tokens that are universe members, preserving
order and repetition. -/
theorem C3_tickers_subset_and_modes (cfg : Config) (dem : List Char → List Char)
    (text : List Char) :
    (∀ t, t ∈ tickers cfg dem text → t ∈ cfg.valid_tickers) ∧
    (cfg.ignore_duplicates = true →
      (tickers cfg dem text).Nodup ∧
      ∀ t, t ∈ tickers cfg dem text ↔ t ∈ words dem text ∧ t ∈ cfg.valid_tickers) ∧
    (cfg.ignore_duplicates = false →
      tickers cfg dem text = (words dem text).filter (fun w => decide (w ∈ cfg.valid_tickers))) := by
  refine ⟨?_, ?_, ?_⟩
  · intro t ht
    unfold tickers at ht
    split at ht
    · exact of_decide_eq_true (List.mem_filter.mp ht).2
    · exact of_decide_eq_true (List.mem_filter.mp ht).2
  · intro hdup
    constructor
    · simp only [tickers, hdup, if_true]
      exact List.Nodup.filter _ (nodup_dedupKeepFirst _)
    · intro t
      simp only [tickers, hdup, if_true, List.mem_filter, mem_dedupKeepFirst,
        decide_eq_true_eq]
  · intro hdup
    simp [tickers, hdup]

/-- Witness for C3 on the concrete input `"GME cat GME"` with universe
`{GME}`, `ignoreDuplicates = true` and `demojize` instantiated as the
identity. -/
theorem C3_tickers_subset_and_modes_witness :
    ("GME".data ∈ tickers ⟨["GME".data], true, []⟩ id "GME cat GME".data ↔
      "GME".data ∈ words id "GME cat GME".data ∧
        "GME".data ∈ (⟨["GME".data], true, []⟩ : Config).valid_tickers) ∧
    (tickers ⟨["GME".data], true, []⟩ id "GME cat GME".data).Nodup ∧
    "GME".data ∈ (⟨["GME".data], true, []⟩ : Config).valid_tickers :=
  ⟨((C3_tickers_subset_and_modes ⟨["GME".data], true, []⟩ id "GME cat GME".data).2.1 rfl).2 _,
   ((C3_tickers_subset_and_modes ⟨["GME".data], true, []⟩ id "GME cat GME".data).2.1 rfl).1,
   (C3_tickers_subset_and_modes ⟨["GME".data], true, []⟩ id "GME cat GME".data).1 _
     (by decide)⟩

/-! ## Claim C4 -/

/-- **C4.** `tickerCounts` (`TickerParser.ticker_counts`) emits, for each
distinct ticker occurring in both the token list and the universe, a count
equal to the number of occurrences of that ticker's token in the tokenized
text; every emitted pair is of that shape; and the output is identical for
both values of `ignoreDuplicates` (the method never reads the flag). -/
theorem C4_ticker_counts_frequencies (cfg : Config) (dem : List Char → List Char)
    (text : List Char) :
    (∀ t, t ∈ words dem text → t ∈ cfg.valid_tickers →
        (t, (words dem text).count t) ∈ ticker_counts cfg dem text) ∧
    (∀ p, p ∈ ticker_counts cfg dem text →
        p.2 = (words dem text).count p.1 ∧ p.1 ∈ cfg.valid_tickers ∧
          p.1 ∈ words dem text) ∧
    (∀ u sw, ticker_counts ⟨u, true, sw⟩ dem text =
        ticker_counts ⟨u, false, sw⟩ dem text) := by
  refine ⟨?_, ?_, fun u sw => rfl⟩
  · intro t hw hv
    unfold ticker_counts
    exact List.mem_map.mpr
      ⟨t, List.mem_filter.mpr ⟨mem_dedupKeepFirst.mpr hw, decide_eq_true hv⟩, rfl⟩
  · intro p hp
    unfold ticker_counts at hp
    obtain ⟨t, ht, rfl⟩ := List.mem_map.mp hp
    have h1 := List.mem_filter.mp ht
    exact ⟨rfl, of_decide_eq_true h1.2, mem_dedupKeepFirst.mp h1.1⟩

/-- Witness for C4 on the concrete input `"GME cat GME"` with universe
`{GME}`: the pair `(GME, 2)` is emitted. -/
theorem C4_ticker_counts_frequencies_witness :
    ("GME".data, (words id "GME cat GME".data).count "GME".data) ∈
        ticker_counts ⟨["GME".data], true, []⟩ id "GME cat GME".data ∧
      (words id "GME cat GME".data).count "GME".data = 2 :=
  ⟨(C4_ticker_counts_frequencies ⟨["GME".data], true, []⟩ id "GME cat GME".data).1
      "GME".data (by decide) (by decide),
   by decide⟩

/-! ## Helper lemmas about the assembly loop -/

/-- Every row `finalizeRow` emits passed the `strike > 5` guard. -/
theorem mem_finalizeRow_strike_gt5 (tv sv dv : List Char) (c : Contract)
    (h : c ∈ finalizeRow tv sv dv) : 5 < c.strike := by
  unfold finalizeRow at h
  split at h
  · split at h
    · have := List.mem_singleton.mp h
      subst this
      simpa using ‹_›
    · simp at h
  · simp at h

/-- Every row the assembly loop appends passed the `strike > 5` guard. -/
theorem mem_assemble_strike_gt5 :
    ∀ (es : List CElem) (t s d : Option (List Char)) (c : Contract),
      c ∈ assemble es t s d → 5 < c.strike := by
  intro es
  induction es with
  | nil => intro t s d c h; simp [assemble] at h
  | cons e es ih =>
    intro t s d c h
    rw [assemble] at h
    split at h
    · rcases List.mem_append.mp h with h1 | h2
      · exact mem_finalizeRow_strike_gt5 _ _ _ _ h1
      · exact ih _ _ _ _ h2
    · exact ih _ _ _ _ h

/-- With no pending ticker and no ticker elements, the assembly loop
emits nothing. -/
theorem assemble_eq_nil_of_no_ticker :
    ∀ (es : List CElem) (s d : Option (List Char)),
      (∀ w, CElem.ticker w ∉ es) → assemble es none s d = [] := by
  intro es
  induction es with
  | nil => intro s d _; rfl
  | cons e es ih =>
    intro s d hno
    have hno' : ∀ w, CElem.ticker w ∉ es := fun w hw =>
      hno w (List.mem_cons_of_mem _ hw)
    rcases e with w | w | w
    · exact absurd (List.mem_cons_self _ _) (hno w)
    · rw [assemble]
      simp only [slotT, slotS, slotD]
      exact ih _ _ hno'
    · rw [assemble]
      simp only [slotT, slotS, slotD]
      exact ih _ _ hno'

/-- With an empty universe, the classifier never produces a ticker
element. -/
theorem classifyWord_no_ticker (t w : List Char) (x : CElem)
    (hx : x ∈ classifyWord [] t w) : ∀ v, x ≠ CElem.ticker v := by
  intro v
  unfold classifyWord at hx
  split_ifs at hx <;> simp_all

/-! ## Claim C2 -/

/-- **C2.** Every `OptionContractMention` returned by `extractContracts`
(`ContractParser.contracts`) has a strike strictly greater than 5, for
every input text and configuration; and on the text `"GME 3C 2/2"` (whose
only candidate triple carries strike 3) with `GME` in the universe, the
result is the empty sequence. -/
theorem C2_strike_threshold :
    (∀ (cfg : Config) (text : List Char) (c : Contract),
        c ∈ contracts cfg text → 5 < c.strike) ∧
      contracts ⟨["GME".data], true, []⟩ "GME 3C 2/2".data = [] := by
  constructor
  · intro cfg text c h
    unfold contracts at h
    split at h
    · exact mem_assemble_strike_gt5 _ _ _ _ _ (mem_dedupKeepFirst.mp h)
    · exact mem_assemble_strike_gt5 _ _ _ _ _ h
  · decide

/-- Witness for C2: a concrete extraction that does return a mention, with
its strike indeed above 5. -/
theorem C2_strike_threshold_witness :
    (⟨"GME".data, 150, "call".data, "1/15".data⟩ : Contract) ∈
        contracts ⟨["GME".data], true, []⟩ "GME 150C 1/15".data ∧
      5 < (⟨"GME".data, 150, "call".data, "1/15".data⟩ : Contract).strike :=
  ⟨by decide,
   C2_strike_threshold.1 ⟨["GME".data], true, []⟩ "GME 150C 1/15".data _ (by decide)⟩

/-! ## Claim C6 -/

/-- **C6.** All four extraction entry points are total functions of their
input (modelled as total Lean functions: the only fallible step, `float()`
on a malformed strike, is caught in the source and absorbed as "no mention
here"); with an empty universe each returns the empty result for every
text and flag value; and an unparseable numeric strike (`1C2C`, whose
numeric part `1C2` fails `float()`) silently drops that candidate while
extraction continues and still emits the following well-formed mention. -/
theorem C6_no_failure_empty_universe :
    (∀ (flag : Bool) (sw : List (List Char)) (dem : List Char → List Char)
        (text : List Char),
        tickers ⟨[], flag, sw⟩ dem text = [] ∧
        ticker_counts ⟨[], flag, sw⟩ dem text = [] ∧
        contracts ⟨[], flag, sw⟩ text = [] ∧
        contract_counts ⟨[], flag, sw⟩ text = []) ∧
      contracts ⟨["GME".data], true, []⟩ "GME 1C2C 1/15 GME 150C 1/15".data =
        [⟨"GME".data, 150, "call".data, "1/15".data⟩] := by
  constructor
  · intro flag sw dem text
    have hc : contracts ⟨[], flag, sw⟩ text = [] := by
      have hno : ∀ w, CElem.ticker w ∉ contract_elements [] text := by
        intro w hw
        obtain ⟨u, _, hu⟩ := List.mem_flatMap.mp hw
        exact classifyWord_no_ticker _ _ _ hu w rfl
      unfold contracts
      rw [assemble_eq_nil_of_no_ticker _ _ _ hno]
      split <;> rfl
    refine ⟨?_, ?_, hc, ?_⟩
    · unfold tickers
      split <;> simp
    · simp [ticker_counts]
    · simp [contract_counts, hc, dedupKeepFirst, sortBy]
  · decide

/-! ## Claim C1 -/

theorem mem_insertSorted (le : α → α → Bool) (a b : α) (l : List α) :
    b ∈ insertSorted le a l ↔ b = a ∨ b ∈ l := by
  induction l with
  | nil => simp [insertSorted]
  | cons c l ih =>
    rw [insertSorted]
    split
    · simp [or_comm, or_left_comm]
    · simp [ih, or_comm, or_left_comm]

theorem mem_sortBy (le : α → α → Bool) (a : α) (l : List α) :
    a ∈ sortBy le l ↔ a ∈ l := by
  induction l with
  | nil => simp [sortBy]
  | cons c l ih => rw [sortBy, mem_insertSorted, ih, List.mem_cons]

/-- The group size is the standard occurrence count. -/
theorem countRow_eq_count (r : Contract) (rows : List Contract) :
    countRow r rows = rows.count r := by
  rw [List.count, List.countP_eq_length_filter]
  rfl

/-- In a duplicate-free row list every present row has group size 1. -/
theorem countRow_eq_one {r : Contract} {rows : List Contract}
    (hn : rows.Nodup) (hm : r ∈ rows) : countRow r rows = 1 := by
  rw [countRow_eq_count]
  exact List.count_eq_one_of_mem hn hm

/-- With `ignore_duplicates` set, the row list of `contracts` is
duplicate-free. -/
theorem contracts_nodup {cfg : Config} (hdup : cfg.ignore_duplicates = true)
    (text : List Char) : (contracts cfg text).Nodup := by
  simp only [contracts, hdup, if_true]
  exact nodup_dedupKeepFirst _

/-- **C1 (counterexample).** The claim asserts that `contractCounts`
bypasses the per-call duplicate suppression, so that on a text with two
structurally identical mentions and `ignoreDuplicates = true` it returns
that mention with count 2.  In the code `contract_counts` calls
`self.contracts(text)`, which has already applied `drop_duplicates()`:
on `"GME 150C 1/15 GME 150C 1/15"` with universe `{GME}` and the flag set,
`extractContracts` returns the single deduplicated mention (this part of
the claim holds), but `contractCounts` returns it with count 1, not 2. -/
theorem C1_contract_counts_counterexample :
    contracts ⟨["GME".data], true, []⟩ "GME 150C 1/15 GME 150C 1/15".data =
        [⟨"GME".data, 150, "call".data, "1/15".data⟩] ∧
      contract_counts ⟨["GME".data], true, []⟩ "GME 150C 1/15 GME 150C 1/15".data =
        [(⟨"GME".data, 150, "call".data, "1/15".data⟩, 1)] ∧
      (⟨"GME".data, 150, "call".data, "1/15".data⟩, 2) ∉
        contract_counts ⟨["GME".data], true, []⟩ "GME 150C 1/15 GME 150C 1/15".data := by
  refine ⟨by decide, by decide, by decide⟩

/-- **C1 (amended).** `contractCounts` (`ContractParser.contract_counts`)
groups the output of `extractContracts` *after* the configured duplicate
handling has been applied: when `ignoreDuplicates` is true every emitted
count equals 1; only with `ignoreDuplicates = false` do the counts record
multiplicity — on a text with two identical contract mentions and the
flag cleared, the mention is returned with count 2. -/
theorem C1_contract_counts_after_dedup (cfg : Config) (text : List Char) :
    (cfg.ignore_duplicates = true →
      ∀ p, p ∈ contract_counts cfg text → p.2 = 1) ∧
      contract_counts ⟨["GME".data], false, []⟩
          "GME 150C 1/15 GME 150C 1/15".data =
        [(⟨"GME".data, 150, "call".data, "1/15".data⟩, 2)] := by
  constructor
  · intro hdup p hp
    unfold contract_counts at hp
    obtain ⟨r, hr, rfl⟩ := List.mem_map.mp hp
    have hr' : r ∈ contracts cfg text :=
      mem_dedupKeepFirst.mp ((mem_sortBy _ _ _).mp hr)
    exact countRow_eq_one (contracts_nodup hdup text) hr'
  · decide

/-- Witness for the amended C1 on the concrete deduplicating
configuration: the emitted pair carries count 1. -/
theorem C1_contract_counts_after_dedup_witness :
    (⟨"GME".data, 150, "call".data, "1/15".data⟩,
        (1 : Nat)) ∈ contract_counts ⟨["GME".data], true, []⟩
          "GME 150C 1/15 GME 150C 1/15".data ∧
      ((⟨"GME".data, 150, "call".data, "1/15".data⟩, (1 : Nat)) :
          Contract × Nat).2 = 1 :=
  ⟨by decide,
   (C1_contract_counts_after_dedup ⟨["GME".data], true, []⟩
        "GME 150C 1/15 GME 150C 1/15".data).1 rfl _ (by decide)⟩

/-! ## Claim C10 -/

/-- **C10.** The configured stop-word set has no effect on ticker or
contract extraction: for any two stop-word sets the four extraction entry
points produce identical outputs (none of them ever applies
`remove_stop_words`), and a universe ticker that is also a stop word
(`THE`, a member of the default `_STOP_WORDS`) is still returned. -/
theorem C10_stop_words_unused :
    (∀ (u : List (List Char)) (flag : Bool) (sw1 sw2 : List (List Char))
        (dem : List Char → List Char) (text : List Char),
        tickers ⟨u, flag, sw1⟩ dem text = tickers ⟨u, flag, sw2⟩ dem text ∧
        ticker_counts ⟨u, flag, sw1⟩ dem text = ticker_counts ⟨u, flag, sw2⟩ dem text ∧
        contracts ⟨u, flag, sw1⟩ text = contracts ⟨u, flag, sw2⟩ text ∧
        contract_counts ⟨u, flag, sw1⟩ text = contract_counts ⟨u, flag, sw2⟩ text) ∧
      ("THE".data ∈ _STOP_WORDS ∧
        tickers ⟨["THE".data], true, _STOP_WORDS⟩ id "the cat".data = ["THE".data]) :=
  ⟨fun _ _ _ _ _ _ => ⟨rfl, rfl, rfl, rfl⟩, by decide, by decide⟩

/-! ## Claim C7 -/

/-- Digit test on an optional neighbouring character (absent neighbours
count as non-digits). -/
def optIsDigit : Option Char → Bool
  | none => false
  | some c => c.isDigit

/-- Number of periods in `cs` having a digit immediately adjacent on at
least one side; `prev` is the character just before the current position
in the surrounding string. -/
def pdCount : Option Char → List Char → Nat
  | _, [] => 0
  | prev, c :: rest =>
    (if c = '.' ∧ (optIsDigit prev = true ∨ optIsDigit rest.head? = true)
      then 1 else 0) + pdCount (some c) rest

/-- Whether some period in the string is flanked by a digit on each
side. -/
def hasDigitFlankedPeriod : List Char → Bool
  | a :: b :: c :: r =>
    (a.isDigit && b = '.' && c.isDigit) || hasDigitFlankedPeriod (b :: c :: r)
  | _ => false

/-- The period-removal pass touches nothing but periods: erasing all
periods before or after the pass gives the same string. -/
theorem remPeriods_filter (b : Bool) (cs : List Char) :
    (remPeriods b cs).filter (fun c => !(decide (c = '.'))) =
      cs.filter (fun c => !(decide (c = '.'))) := by
  induction b, cs using remPeriods.induct <;>
    simp_all [remPeriods, List.filter_cons] <;>
    (try split_ifs) <;> simp_all

/-- The output of the period-removal pass is a subsequence of its
input. -/
theorem remPeriods_sublist (b : Bool) (cs : List Char) :
    List.Sublist (remPeriods b cs) cs := by
  induction b, cs using remPeriods.induct <;>
    simp only [remPeriods] <;>
    (try split_ifs) <;>
    solve_by_elim [List.Sublist.cons, List.Sublist.cons₂, List.nil_sublist,
      List.Sublist.refl]

theorem ne_dot_of_isDigit {c : Char} (h : c.isDigit = true) : ¬(c = '.') := by
  rintro rfl
  exact absurd h (by decide)

theorem dot_not_digit : ('.' : Char).isDigit = false := by decide

theorem optIsDigit_none : optIsDigit none = false := rfl

theorem optIsDigit_some (c : Char) : optIsDigit (some c) = c.isDigit := rfl

/-- Counting periods through one cons cell. -/
theorem count_dot_cons (c : Char) (l : List Char) :
    List.count '.' (c :: l) = List.count '.' l + (if ('.' : Char) = c then 1 else 0) := by
  rw [List.count_cons]
  by_cases h : ('.' : Char) = c
  · subst h
    simp
  · have h' : ¬(c = '.') := fun hc => h hc.symm
    simp [h, h']

/-- No period with a digit immediately adjacent on either side is ever
removed by the period-removal pass: the number of surviving periods is at
least the number of digit-adjacent periods of the input (`prev` supplies
the character before the scan position; at the start of the string there
is none). -/
theorem pdCount_le_count :
    ∀ (b : Bool) (cs : List Char) (prev : Option Char), (b = true → prev = none) →
      pdCount prev cs ≤ (remPeriods b cs).count '.' := by
  intro b cs
  induction b, cs using remPeriods.induct with
  | case1 x => intro prev _; simp [pdCount]
  | case2 atStart a h =>
    intro prev hprev
    have hc := h
    simp only [Bool.and_eq_true, decide_eq_true_eq] at hc
    obtain ⟨hst, ha⟩ := hc
    subst ha
    have hpn := hprev hst
    subst hpn
    rw [remPeriods, if_pos h]
    simp [pdCount, optIsDigit_none]
  | case3 atStart a h =>
    intro prev _
    rw [remPeriods, if_neg h]
    simp only [pdCount, count_dot_cons, List.count_nil, List.head?_nil,
      optIsDigit_none, optIsDigit_some]
    split_ifs <;> first | omega | (exfalso; simp_all)
  | case4 atStart a hdig ih =>
    intro prev _
    have hne := ne_dot_of_isDigit hdig
    have hne' : ¬(('.' : Char) = a) := fun h => hne h.symm
    have hrec : remPeriods false ['.'] = ['.'] := by
      rw [remPeriods, if_neg (by simp)]
    rw [remPeriods, if_pos hdig, hrec]
    simp only [pdCount, count_dot_cons, List.count_nil, List.head?_cons,
      List.head?_nil, optIsDigit_none, optIsDigit_some]
    split_ifs <;> first | omega | (exfalso; simp_all [dot_not_digit])
  | case5 atStart a hnd =>
    intro prev _
    rw [remPeriods, if_neg hnd]
    simp only [pdCount, count_dot_cons, List.count_nil, List.head?_cons,
      List.head?_nil, optIsDigit_none, optIsDigit_some]
    split_ifs <;> first | omega | (exfalso; simp_all [dot_not_digit])
  | case6 atStart a b r3 hdig ih =>
    intro prev _
    have hIH := ih (some a) (by simp)
    rw [remPeriods, if_pos hdig]
    simp only [pdCount, count_dot_cons, List.head?_cons, optIsDigit_some] at hIH ⊢
    split_ifs at hIH ⊢ <;> first | omega | (exfalso; simp_all [dot_not_digit])
  | case7 atStart a b r3 hnd hbd hcond ih =>
    intro prev hprev
    have hc := hcond
    simp only [Bool.and_eq_true, decide_eq_true_eq] at hc
    obtain ⟨hst, ha⟩ := hc
    subst ha
    have hpn := hprev hst
    subst hpn
    have hIH := ih (some '.') (by simp)
    rw [remPeriods, if_neg hnd, if_pos hbd, if_pos hcond]
    simp only [pdCount, count_dot_cons, List.head?_cons, optIsDigit_some,
      optIsDigit_none] at hIH ⊢
    split_ifs at hIH ⊢ <;> first | omega | (exfalso; simp_all [dot_not_digit])
  | case8 atStart a b r3 hnd hbd hcond ih =>
    intro prev _
    have hIH := ih (some a) (by simp)
    rw [remPeriods, if_neg hnd, if_pos hbd, if_neg hcond]
    simp only [pdCount, count_dot_cons, List.head?_cons, optIsDigit_some] at hIH ⊢
    split_ifs at hIH ⊢ <;> first | omega | (exfalso; simp_all [dot_not_digit])
  | case9 atStart a b r3 hnd hbnd ih =>
    intro prev _
    have hIH := ih (some b) (by simp)
    rw [remPeriods, if_neg hnd, if_neg hbnd]
    simp only [pdCount, count_dot_cons, List.head?_cons, optIsDigit_some]
    split_ifs <;> first | omega | (exfalso; simp_all [dot_not_digit])
  | case10 atStart a c r2 hx1 hx2 hcond hcd ih =>
    intro prev hprev
    have hc := hcond
    simp only [Bool.and_eq_true, decide_eq_true_eq] at hc
    obtain ⟨hst, ha⟩ := hc
    subst ha
    have hpn := hprev hst
    subst hpn
    have hIH := ih (some '.') (by simp)
    rw [remPeriods] <;> try assumption
    rw [if_pos hcond, if_pos hcd]
    simp only [pdCount, count_dot_cons, List.head?_cons, optIsDigit_some,
      optIsDigit_none] at hIH ⊢
    split_ifs at hIH ⊢ <;> first | omega | (exfalso; simp_all [dot_not_digit])
  | case11 atStart a c r2 hx1 hx2 hcond hcnd ih =>
    intro prev hprev
    have hc := hcond
    simp only [Bool.and_eq_true, decide_eq_true_eq] at hc
    obtain ⟨hst, ha⟩ := hc
    subst ha
    have hpn := hprev hst
    subst hpn
    have hcne : ¬(c = '.') := by
      intro hceq
      cases r2 with
      | nil => exact hx1 hceq rfl
      | cons b' r3 => exact hx2 b' r3 hceq rfl
    have hIH := ih (some c) (by simp)
    rw [remPeriods] <;> try assumption
    rw [if_pos hcond, if_neg hcnd]
    simp only [pdCount, count_dot_cons, List.head?_cons, optIsDigit_some,
      optIsDigit_none]
    split_ifs <;> first | omega | (exfalso; simp_all [dot_not_digit])
  | case12 atStart a c r2 hx1 hx2 hcond ih =>
    intro prev _
    have hIH := ih (some a) (by simp)
    rw [remPeriods] <;> try assumption
    rw [if_neg hcond]
    simp only [pdCount, count_dot_cons, List.head?_cons, optIsDigit_some] at hIH ⊢
    split_ifs at hIH ⊢ <;> first | omega | (exfalso; simp_all [dot_not_digit])

/-- **C7 (counterexample).** The claim asserts the period-removal step
(`re.sub(r'([^0-9]|^)\.([^0-9]|$)', r'\1\2', text)`) leaves a period in
the output iff the input had a period flanked by a digit on each side —
in particular that a period with a digit on only one side is removed.  On
the input `"5.a"` the period has a digit on the left only, yet Python's
pattern cannot match it (the character before the period would have to be
a non-digit or the string start), so the output still contains a period
although the input has no digit-flanked period. -/
theorem C7_period_removal_counterexample :
    remPeriods true "5.a".data = "5.a".data ∧
      hasDigitFlankedPeriod "5.a".data = false ∧
      '.' ∈ remPeriods true "5.a".data := by
  refine ⟨by decide, by decide, by decide⟩

/-- **C7 (amended).** The period-removal step removes nothing but period
characters (erasing periods commutes with the pass, and the output is a
subsequence of the input), and it never removes a period that has a digit
immediately adjacent on either side — so decimal strikes like `2.5`
survive and no surrounding characters are lost.  However, not every
period lacking digit neighbours is removed: a period whose left neighbour
would have to participate in a second overlapping match survives
(`".."` yields `"."`), and a period with a digit on exactly one side is
kept rather than removed (`"5.a"` is unchanged), while a period between
two non-digits at a fresh scan position is removed (`"a.b"` becomes
`"ab"`). -/
theorem C7_period_removal_scan (b : Bool) (cs : List Char) :
    ((remPeriods b cs).filter (fun c => !(decide (c = '.'))) =
        cs.filter (fun c => !(decide (c = '.'))) ∧
      List.Sublist (remPeriods b cs) cs ∧
      pdCount none cs ≤ (remPeriods true cs).count '.') ∧
    (remPeriods true "2.5".data = "2.5".data ∧
      remPeriods true "..".data = ".".data ∧
      remPeriods true "5.a".data = "5.a".data ∧
      remPeriods true "a.b".data = "ab".data) :=
  ⟨⟨remPeriods_filter b cs, remPeriods_sublist b cs,
    pdCount_le_count true cs none (fun _ => rfl)⟩,
   by decide, by decide, by decide, by decide⟩

/-! ## Claim C8 -/

/-- **C8 (counterexample).** The claim asserts a token is classified as an
inferred strike exactly when it is *purely numeric*, and that a token with
non-digit characters (besides a trailing `C`/`P`) is never classified as a
strike.  The inferred-strike branch of `_contract_elements` only requires
`re.search(r'\d+', word)` — at least one digit, not all digits: on the
text `"X1 CALL"` (its own rewrite image) the token `X1`, which is not
purely numeric, is classified as the inferred strike `X1C`. -/
theorem C8_inferred_strike_counterexample :
    contract_elements [] "X1 CALL".data = [CElem.strike "X1C".data] ∧
      "X1".data.all Char.isDigit = false := by
  refine ⟨by decide, by decide⟩

/-- **C8 (amended).** A token that is not a universe ticker and does not
match the explicit strike pattern is classified as an inferred strike with
suffix `C` exactly when it contains no slash, contains *at least one*
digit (it need not be purely numeric), and the literal `CALL` occurs
anywhere in the whole rewritten text; with suffix `P` exactly when it
contains no slash and a digit, `CALL` occurs nowhere and `PUT` occurs
somewhere in the rewritten text. -/
theorem C8_inferred_strike_rule (valid : List (List Char)) (t w : List Char)
    (hv : w ∉ valid) (hs : hasStrikePat w = false) :
    (classifyWord valid t w = [CElem.strike (w ++ ['C'])] ↔
      ('/' ∉ w ∧ w.any Char.isDigit = true ∧ isSubstr "CALL".data t = true)) ∧
    (classifyWord valid t w = [CElem.strike (w ++ ['P'])] ↔
      ('/' ∉ w ∧ w.any Char.isDigit = true ∧ isSubstr "CALL".data t = false ∧
        isSubstr "PUT".data t = true)) := by
  unfold classifyWord
  rw [if_neg hv, if_neg (by simp [hs])]
  constructor
  · constructor
    · intro h
      split_ifs at h <;> simp_all
    · rintro ⟨h1, h2, h3⟩
      rw [if_pos (by simp [h1, h2]), if_pos h3]
  · constructor
    · intro h
      split_ifs at h <;> simp_all
    · rintro ⟨h1, h2, h3, h4⟩
      rw [if_pos (by simp [h1, h2]), if_neg (by simp [h3]), if_pos h4]

/-- Witness for the amended C8 at the concrete token `X1` of the rewritten
text `"X1 CALL"` with an empty universe. -/
theorem C8_inferred_strike_rule_witness :
    (classifyWord [] "X1 CALL".data "X1".data =
        [CElem.strike ("X1".data ++ ['C'])] ↔
      ('/' ∉ "X1".data ∧ "X1".data.any Char.isDigit = true ∧
        isSubstr "CALL".data "X1 CALL".data = true)) ∧
    (classifyWord [] "X1 CALL".data "X1".data =
        [CElem.strike ("X1".data ++ ['P'])] ↔
      ('/' ∉ "X1".data ∧ "X1".data.any Char.isDigit = true ∧
        isSubstr "CALL".data "X1 CALL".data = false ∧
        isSubstr "PUT".data "X1 CALL".data = true)) :=
  C8_inferred_strike_rule [] "X1 CALL".data "X1".data (by decide) (by decide)

/-! ## Claim C9 -/

theorem isSubstr_of_prefix_drop (p : List Char) :
    ∀ (cs : List Char) (n : Nat),
      p.isPrefixOf (cs.drop n) = true → isSubstr p cs = true := by
  intro cs
  induction cs with
  | nil =>
    intro n h
    rw [List.drop_nil] at h
    rw [isSubstr]
    exact h
  | cons c cs ih =>
    intro n h
    cases n with
    | zero =>
      rw [List.drop_zero] at h
      rw [isSubstr, h]
      simp
    | succ n =>
      have hr := ih n (by simpa using h)
      rw [isSubstr, hr]
      simp

theorem isSubstr_cons_false {p : List Char} {c : Char} {cs : List Char}
    (h : isSubstr p (c :: cs) = false) : isSubstr p cs = false := by
  rw [isSubstr] at h
  exact (Bool.or_eq_false_iff.mp h).2

/-- The first alternative of the `CALL` rewrite can only fire where the
literal `CALL` occurs in the text. -/
theorem callAlt1_substr {cs : List Char} {x : List Char × List Char}
    (h : callAlt1 cs = some x) : isSubstr "CALL".data cs = true := by
  match cs with
  | [] => simp [callAlt1] at h
  | p :: rest =>
    rw [callAlt1] at h
    split_ifs at h <;> try exact Option.noConfusion h
    -- two branches remain: with and without the optional space consumed
    · split at h
      · rename_i r4 heq
        rw [List.tail_drop] at heq
        apply isSubstr_of_prefix_drop _ _
          (((rest.takeWhile Char.isDigit).length + 1) + 1)
        rw [List.drop_succ_cons, heq,
          (by decide : "CALL".data = ['C', 'A', 'L', 'L'])]
        simp [List.isPrefixOf]
      · exact Option.noConfusion h
    · split at h
      · rename_i r4 heq
        apply isSubstr_of_prefix_drop _ _ ((rest.takeWhile Char.isDigit).length + 1)
        rw [List.drop_succ_cons, heq,
          (by decide : "CALL".data = ['C', 'A', 'L', 'L'])]
        simp [List.isPrefixOf]
      · exact Option.noConfusion h

/-- The first alternative of the `PUT` rewrite can only fire where the
literal `PUT` occurs in the text. -/
theorem putAlt1_substr {cs : List Char} {x : List Char × List Char}
    (h : putAlt1 cs = some x) : isSubstr "PUT".data cs = true := by
  match cs with
  | [] => simp [putAlt1] at h
  | p :: rest =>
    rw [putAlt1] at h
    split_ifs at h <;> try exact Option.noConfusion h
    · split at h
      · rename_i r4 heq
        rw [List.tail_drop] at heq
        apply isSubstr_of_prefix_drop _ _
          (((rest.takeWhile Char.isDigit).length + 1) + 1)
        rw [List.drop_succ_cons, heq,
          (by decide : "PUT".data = ['P', 'U', 'T'])]
        simp [List.isPrefixOf]
      · exact Option.noConfusion h
    · split at h
      · rename_i r4 heq
        apply isSubstr_of_prefix_drop _ _ ((rest.takeWhile Char.isDigit).length + 1)
        rw [List.drop_succ_cons, heq,
          (by decide : "PUT".data = ['P', 'U', 'T'])]
        simp [List.isPrefixOf]
      · exact Option.noConfusion h

/-- A successful match of the full `CALL` pattern at a position requires
the literal `CALL` or the literal `CS` to occur there. -/
theorem callStep_some {cs : List Char} {x : List Char × List Char}
    (h : callStep cs = some x) :
    isSubstr "CALL".data cs = true ∨ isSubstr "CS".data cs = true := by
  unfold callStep at h
  split at h
  · rename_i r heq
    exact Or.inl (callAlt1_substr heq)
  · split at h
    · rename_i rest
      refine Or.inr ?_
      rw [isSubstr, (by decide : "CS".data = ['C', 'S'])]
      simp [List.isPrefixOf]
    · exact Option.noConfusion h

/-- A successful match of the full `PUT` pattern at a position requires
the literal `PUT` or the literal `PS` to occur there. -/
theorem putStep_some {cs : List Char} {x : List Char × List Char}
    (h : putStep cs = some x) :
    isSubstr "PUT".data cs = true ∨ isSubstr "PS".data cs = true := by
  unfold putStep at h
  split at h
  · rename_i r heq
    exact Or.inl (putAlt1_substr heq)
  · split at h
    · rename_i rest
      refine Or.inr ?_
      rw [isSubstr, (by decide : "PS".data = ['P', 'S'])]
      simp [List.isPrefixOf]
    · exact Option.noConfusion h

/-- A text containing neither `CALL` nor the bare two letters `CS` passes
the `CALL`-rewrite scan unchanged (no position can match either
alternative). -/
theorem reSub_callStep_eq_self :
    ∀ (fuel : Nat) (b : Bool) (cs : List Char),
      isSubstr "CALL".data cs = false → isSubstr "CS".data cs = false →
      reSub (fun _ => callStep) fuel b cs = cs := by
  intro fuel
  induction fuel with
  | zero => intro b cs _ _; cases cs <;> rfl
  | succ fuel ih =>
    intro b cs hCALL hCS
    cases cs with
    | nil => rfl
    | cons c cs =>
      have hstep : callStep (c :: cs) = none := by
        cases hs : callStep (c :: cs) with
        | none => rfl
        | some x =>
          rcases callStep_some hs with h1 | h1
          · rw [h1] at hCALL; exact Bool.noConfusion hCALL
          · rw [h1] at hCS; exact Bool.noConfusion hCS
      simp only [reSub, hstep]
      exact congrArg _
        (ih false cs (isSubstr_cons_false hCALL) (isSubstr_cons_false hCS))

/-- Mirror of `reSub_callStep_eq_self` for the `PUT`/`PS` rewrite. -/
theorem reSub_putStep_eq_self :
    ∀ (fuel : Nat) (b : Bool) (cs : List Char),
      isSubstr "PUT".data cs = false → isSubstr "PS".data cs = false →
      reSub (fun _ => putStep) fuel b cs = cs := by
  intro fuel
  induction fuel with
  | zero => intro b cs _ _; cases cs <;> rfl
  | succ fuel ih =>
    intro b cs hPUT hPS
    cases cs with
    | nil => rfl
    | cons c cs =>
      have hstep : putStep (c :: cs) = none := by
        cases hs : putStep (c :: cs) with
        | none => rfl
        | some x =>
          rcases putStep_some hs with h1 | h1
          · rw [h1] at hPUT; exact Bool.noConfusion hPUT
          · rw [h1] at hPS; exact Bool.noConfusion hPS
      simp only [reSub, hstep]
      exact congrArg _
        (ih false cs (isSubstr_cons_false hPUT) (isSubstr_cons_false hPS))

/-- **C9 (counterexample).** The claim asserts that an occurrence of one
of the verbose type words — including `CS` as a substring of another
token, such as the ticker `CSCO` — that does not follow a numeric strike
is left unchanged by the verbose-type rewrite.  But in
`([.| ]\d+) ?(CALL(S)?)|CS` the alternation covers the whole pattern, so
a bare `CS` matches anywhere, with group 1 unset and substituted by the
empty string: `"CSCO"` (which contains no digit at all, hence no numeric
strike) is rewritten to `"CCO"`. -/
theorem C9_verbose_type_counterexample :
    replaceCalls "CSCO".data = "CCO".data ∧
      "CSCO".data.any Char.isDigit = false := by
  refine ⟨by decide, by decide⟩

/-- **C9 (amended).** The verbose-type step rewrites `CALL`/`CALLS`
(resp. `PUT`/`PUTS`) into a trailing `C` (resp. `P`) on a number only when
preceded by a `.`/`|`/space and a digit run; an occurrence of those words
not in that context is left unchanged.  However, the two-letter substrings
`CS` and `PS` are their own alternatives of the pattern and are rewritten
to `C` and `P` wherever they occur — even inside a ticker like `CSCO` with
no numeric strike anywhere.  A text containing neither `CALL` nor `CS`
(resp. neither `PUT` nor `PS`) is left entirely unchanged. -/
theorem C9_verbose_type_rule :
    (∀ cs : List Char, isSubstr "CALL".data cs = false →
        isSubstr "CS".data cs = false → replaceCalls cs = cs) ∧
    (∀ cs : List Char, isSubstr "PUT".data cs = false →
        isSubstr "PS".data cs = false → replacePuts cs = cs) ∧
    (replaceCalls " 150 CALLS ".data = " 150C ".data ∧
      replacePuts " 10 PUTS".data = " 10P".data ∧
      replaceCalls "CALL IT".data = "CALL IT".data ∧
      replaceCalls "CSCO".data = "CCO".data ∧
      replacePuts "OOPS".data = "OOP".data) :=
  ⟨fun cs => reSub_callStep_eq_self cs.length true cs,
   fun cs => reSub_putStep_eq_self cs.length true cs,
   by decide, by decide, by decide, by decide, by decide⟩

/-- Witness for the amended C9: a text with neither `CALL` nor `CS` is
returned unchanged by the `CALL` rewrite. -/
theorem C9_verbose_type_rule_witness :
    replaceCalls "GME 150P 1/15".data = "GME 150P 1/15".data :=
  C9_verbose_type_rule.1 "GME 150P 1/15".data (by decide) (by decide)

end Trendfin
